import Mathlib

/-!
Verification of the rake-pos keyword-extraction library (hlo-world/rake-pos).

The repository ships several variants of `src/index.ts`.  We shallowly embed:
* the primary variant of `src/index.ts` (lodash-based pipeline:
  `splitSentences`, `generateCandidateKeywords`, `calculateWordScores`,
  `generateCandidateKeywordScores`, `extractWithRakePos`);
* the newest variant (`generateScoredPhrases` and its stable descending sort);
* spec-modelled components whose current implementation is exercised only by
  the repository's test suite (phrase segmentation with accumulation, and the
  four-form POS lookup).

Strings are embedded as `List Char` (`K`); JavaScript numbers as `ℚ`
(all arithmetic performed by the library is small-integer arithmetic and
exact division); JavaScript objects (`Record<string, T>`) as insertion-ordered
association lists with unique keys; thrown `TypeError`s as `Option.none`.
-/

namespace RakePos

/- Batteries marks the rational operations irreducible, which blocks the
elaborator (not the kernel) when evaluating concrete pipeline runs. -/
attribute [local semireducible] Rat.add Rat.sub Rat.mul Rat.inv

/-- Strings are modelled by their character lists. -/
abbrev K := List Char

/-! ### Character classes (ASCII, as used by the JS regexes) -/

/-- JS `/\d/` on a single character. -/
def isDigitCh (c : Char) : Bool := 48 ≤ c.toNat && c.toNat ≤ 57

/-- ASCII uppercase letter. -/
def isUpperCh (c : Char) : Bool := 65 ≤ c.toNat && c.toNat ≤ 90

/-- ASCII lowercase letter. -/
def isLowerCh (c : Char) : Bool := 97 ≤ c.toNat && c.toNat ≤ 122

/-- JS `/[a-zA-Z]/` on a single character. -/
def isAlphaCh (c : Char) : Bool := isUpperCh c || isLowerCh c

/-- ASCII alphanumeric character. -/
def isAlnumCh (c : Char) : Bool := isAlphaCh c || isDigitCh c

/-- JS `/\s/` (whitespace); we model the ASCII whitespace characters
space, tab, newline, carriage return, vertical tab and form feed. -/
def isWsCh (c : Char) : Bool :=
  c.toNat = 32 || c.toNat = 9 || c.toNat = 10 || c.toNat = 13 ||
  c.toNat = 11 || c.toNat = 12

/-- A space character (used by `split(' ')`). -/
def isSpaceCh (c : Char) : Bool := c.toNat = 32

/-- JS `String.prototype.toLowerCase` on one character (ASCII range). -/
def lowerCh (c : Char) : Char :=
  if isUpperCh c then Char.ofNat (c.toNat + 32) else c

/-- JS `String.prototype.toLowerCase`. -/
def lowerStr (s : K) : K := s.map lowerCh

/-! ### JS string primitives -/

/-- JS `String.prototype.split` with a single-character-class regex:
splits at every separator character, keeping empty pieces. -/
def splitCh (p : Char → Bool) : List Char → List (List Char)
  | [] => [[]]
  | c :: cs =>
    match splitCh p cs with
    | [] => [[c]]
    | w :: ws => if p c then [] :: w :: ws else (c :: w) :: ws

/-- JS `String.prototype.trim` (leading and trailing whitespace removed). -/
def trimCh (s : List Char) : List Char :=
  ((s.dropWhile isWsCh).reverse.dropWhile isWsCh).reverse

/-- Helper for `collapseWs`: the flag records whether the previous character
was whitespace (in which case further whitespace of the same run is
dropped). -/
def collapseWsAux : Bool → List Char → List Char
  | _, [] => []
  | prevWs, c :: rest =>
    if isWsCh c then
      if prevWs then collapseWsAux true rest
      else ' ' :: collapseWsAux true rest
    else c :: collapseWsAux false rest

/-- `replace(/\s+/g, ' ')`: every maximal whitespace run becomes one space. -/
def collapseWs (s : List Char) : List Char := collapseWsAux false s

/-! ### JS objects as insertion-ordered association lists

A JS `Record<string, T>` keeps its (non-integer-like) keys in insertion
order; assigning to an existing key keeps its position, assigning to a new
key appends it.  `alSet` mirrors the assignment `m[k] = v`; `alGet?`
mirrors the lookup `m[k]` (with `none` for `undefined`). -/

section AssocList

variable {κ : Type} [DecidableEq κ] {α : Type}

/-- Lookup `m[k]` in a JS object (`none` = `undefined`). -/
def alGet? : List (κ × α) → κ → Option α
  | [], _ => none
  | e :: m, k => if e.1 = k then some e.2 else alGet? m k

/-- Assignment `m[k] = v` in a JS object. -/
def alSet : List (κ × α) → κ → α → List (κ × α)
  | [], k, v => [(k, v)]
  | e :: m, k, v => if e.1 = k then (e.1, v) :: m else e :: alSet m k v

/-- Lookup with a default value. -/
def alGetD (m : List (κ × α)) (k : κ) (d : α) : α := (alGet? m k).getD d

/-- The JS `k in m` test. -/
def alMem (m : List (κ × α)) (k : κ) : Bool := (alGet? m k).isSome

/-- `Object.keys(m)` (insertion order). -/
def alKeys (m : List (κ × α)) : List κ := m.map Prod.fst

end AssocList

/-! ### The primary `src/index.ts` variant -/

/-- `isNumber` of the primary variant: `/\d/.test(str)`, i.e. the string
contains a digit. -/
def isNumber (s : K) : Bool := s.any isDigitCh

/-- `isAcceptable(phrase, minCharLength, maxWordsLength)`. -/
def isAcceptable (phrase : K) (minCharLength maxWordsLength : Nat) : Bool :=
  if phrase.length < minCharLength then false
  else if (splitCh isSpaceCh phrase).length > maxWordsLength then false
  else
    let digits := phrase.countP isDigitCh
    let alpha := phrase.countP isAlphaCh
    if alpha = 0 then false
    else if digits > alpha then false
    else true

/-- `countOccurrences(haystack, needle)`. -/
def countOccurrences (haystack : List K) (needle : K) : Nat :=
  haystack.foldl (fun n v => n + if v = needle then 1 else 0) 0

/-- The word-delimiter class of `separateWords`: the complement of the
letters, the digits, underscore (95), plus (43), hyphen (45) and slash (47). -/
def wordDelimCh (c : Char) : Bool :=
  !(isAlnumCh c || c.toNat = 95 || c.toNat = 43 || c.toNat = 45 || c.toNat = 47)

/-- `separateWords(text, minWordReturnSize)` of the primary variant. -/
def separateWords (text : K) (minWordReturnSize : Nat) : List K :=
  (splitCh wordDelimCh text).filterMap fun singleWord =>
    let currentWord := lowerStr (trimCh singleWord)
    if minWordReturnSize < currentWord.length ∧ currentWord ≠ [] ∧
        isNumber currentWord = false
    then some currentWord else none

/-- One step of the word-frequency / word-degree accumulation inside
`calculateWordScores`: `m[w] = (m[w] ?? 0) + d` (the source first inserts a
`0` for a missing key and then adds, which is the same assignment). -/
def bumpQ (m : List (K × ℚ)) (w : K) (d : ℚ) : List (K × ℚ) :=
  let m := if alMem m w then m else alSet m w 0
  alSet m w (alGetD m w 0 + d)

/-- `calculateWordScores(phraseList)` of the primary variant.  Note the
second pass `wordDegree[item] += wordFrequency[item]` of the source, which
adds each word's own frequency into its degree before the division. -/
def calculateWordScores (phraseList : List K) : List (K × ℚ) :=
  let fd := phraseList.foldl
    (fun (fd : List (K × ℚ) × List (K × ℚ)) phrase =>
      let wordList := separateWords phrase 0
      let wordListDegree : ℚ := (wordList.length : ℚ) - 1
      wordList.foldl
        (fun fd word => (bumpQ fd.1 word 1, bumpQ fd.2 word wordListDegree))
        fd)
    ([], [])
  let wordFrequency := fd.1
  let wordDegree := (alKeys wordFrequency).foldl
    (fun wd item => alSet wd item (alGetD wd item 0 + alGetD wordFrequency item 0))
    fd.2
  (alKeys wordFrequency).foldl
    (fun ws item => alSet ws item (alGetD wordDegree item 0 / alGetD wordFrequency item 0))
    []

/-- The inner per-word loop body of `generateCandidateKeywordScores`:
`candidateScore += wordScore[word]; keywordCandidates[phrase] =
candidateScore`.  (When called from the pipeline every word of every phrase
has an entry in `wordScore`, so the default `0` of the modelled lookup is
never used.) -/
def gcksInner (wordScore : List (K × ℚ)) (phrase : K)
    (p : ℚ × List (K × ℚ)) (word : K) : ℚ × List (K × ℚ) :=
  let candidateScore := p.1 + alGetD wordScore word 0
  (candidateScore, alSet p.2 phrase candidateScore)

/-- The per-phrase loop body of `generateCandidateKeywordScores`: skip the
phrase when `minKeywordFrequency > 1` and its occurrence count in the full
`phraseList` is below the threshold, otherwise ensure its entry and run the
word loop. -/
def gcksStep (phraseList : List K) (wordScore : List (K × ℚ))
    (minKeywordFrequency : Nat) (keywordCandidates : List (K × ℚ))
    (phrase : K) : List (K × ℚ) :=
  if 1 < minKeywordFrequency ∧
      countOccurrences phraseList phrase < minKeywordFrequency then
    keywordCandidates
  else
    let kc := if alMem keywordCandidates phrase then keywordCandidates
              else alSet keywordCandidates phrase 0
    let wordList := separateWords phrase 0
    (wordList.foldl (gcksInner wordScore phrase) (0, kc)).2

/-- `generateCandidateKeywordScores(phraseList, wordScore,
minKeywordFrequency)`. -/
def generateCandidateKeywordScores (phraseList : List K)
    (wordScore : List (K × ℚ)) (minKeywordFrequency : Nat) : List (K × ℚ) :=
  phraseList.foldl (gcksStep phraseList wordScore minKeywordFrequency) []

/-- The sentence-delimiter class
`/[[\]!.?,;:\t\\\-"'()'’–\n]/` by character codes. -/
def isSentenceDelimCh (c : Char) : Bool :=
  [91, 93, 33, 46, 63, 44, 59, 58, 9, 92, 45, 34, 39, 40, 41, 8217, 8211, 10].contains c.toNat

/-- `splitSentences(text)`. -/
def splitSentences (text : String) : List K :=
  splitCh isSentenceDelimCh text.data

/-- The first `replace` of `generateCandidateKeywords`:
`replace(/[^\w\s]|_/g, '')` keeps a character iff it is alphanumeric or
whitespace (`\w` is `[A-Za-z0-9_]`, but `_` is removed again by `|_`). -/
def keepWordOrSpaceCh (c : Char) : Bool := isAlnumCh c || isWsCh c

/-- `generateCandidateKeywords(sentenceList, stopWordSet, minCharLength,
maxWordsLength)` of the primary variant.  Each whitespace-separated token
becomes its own candidate phrase. -/
def generateCandidateKeywords (sentenceList : List K) (stopWordSet : List K)
    (minCharLength maxWordsLength : Nat) : List K :=
  sentenceList.foldl
    (fun phraseList sentence =>
      let tmp := collapseWs (sentence.filter keepWordOrSpaceCh)
      let phrases := splitCh isSpaceCh tmp
      phraseList ++ phrases.filterMap fun ph =>
        let phrase := lowerStr (trimCh ph)
        if phrase ≠ [] ∧ isAcceptable phrase minCharLength maxWordsLength = true ∧
            phrase ∉ stopWordSet
        then some phrase else none)
    []

/-- The per-phrase acceptance test of `generateCandidateKeywords` as a
predicate on the normalized token. -/
def phraseAccept (stopWordSet : List K) (minCharLength maxWordsLength : Nat)
    (phrase : K) : Bool :=
  decide (phrase ≠ [] ∧ isAcceptable phrase minCharLength maxWordsLength = true ∧
    phrase ∉ stopWordSet)

/-- All normalized tokens of all sentences, before the acceptance test
(used to analyse `generateCandidateKeywords`: its output is this list
filtered by `phraseAccept`). -/
def candidateTokens (sentenceList : List K) : List K :=
  sentenceList.foldl
    (fun ts sentence =>
      ts ++ (splitCh isSpaceCh (collapseWs (sentence.filter keepWordOrSpaceCh))).map
        fun ph => lowerStr (trimCh ph))
    []

/-- The ranking step
`fromPairs(sortBy(toPairs(kc), pair => pair[1]).reverse())` followed by
`Object.keys`: a stable ascending sort by score (lodash `sortBy` is stable),
reversed, then the keys in that order.  `List.insertionSort` is a stable
sort, hence produces the same list as lodash's stable sort. -/
def sortedKeywordKeys (keywordCandidates : List (K × ℚ)) : List K :=
  ((List.insertionSort (fun p q : K × ℚ => p.2 ≤ q.2) keywordCandidates).reverse).map
    Prod.fst

/-- The POS filter predicate of the primary variant:
`keywordPOS && posAllowedList.some(a => keywordPOS.includes(a))` with
`keywordPOS = brill[keyword]` (a single, exact-key lookup). -/
def posKeep (brill : List (K × List String)) (posAllowedList : List String)
    (keyword : K) : Bool :=
  match alGet? brill keyword with
  | none => false
  | some keywordPOS => posAllowedList.any fun a => keywordPOS.contains a

/-- `extractWithRakePos` of the primary variant, with the combined stopword
set, the tagger table and the allowed-tag list passed as the injected
capabilities the spec describes. -/
def extractWithRakePos (stopWordSet : List K) (brill : List (K × List String))
    (posAllowedList : List String)
    (minCharLength maxWordsLength minKeywordFrequency : Nat)
    (text : String) : List String :=
  let sentenceList := splitSentences text
  let phraseList :=
    generateCandidateKeywords sentenceList stopWordSet minCharLength maxWordsLength
  let wordScores := calculateWordScores phraseList
  let keywordCandidates :=
    generateCandidateKeywordScores phraseList wordScores minKeywordFrequency
  let keywordsList := sortedKeywordKeys keywordCandidates
  (keywordsList.filter (posKeep brill posAllowedList)).map String.mk

/-- The top of `extractWithRakePos` including the per-language stopword
table: `new Set([...isoStopWordSet[language], ...additionalStopWordSet])`.
Spreading the `undefined` obtained for an unknown language code throws a
`TypeError`, modelled as `none`. -/
def extractWithRakePosLang (isoStopWordSet : List (String × List K))
    (language : String) (additionalStopWordSet : List K)
    (brill : List (K × List String)) (posAllowedList : List String)
    (minCharLength maxWordsLength minKeywordFrequency : Nat)
    (text : String) : Option (List String) :=
  match alGet? isoStopWordSet language with
  | none => none
  | some base =>
    some (extractWithRakePos (base ++ additionalStopWordSet) brill posAllowedList
      minCharLength maxWordsLength minKeywordFrequency text)

/-! ### The newest `src/index.ts` variant

This variant replaces `calculateWordScores`/`generateCandidateKeywordScores`
by a single pass `generateScoredPhrases` and sorts with the (stable)
built-in `Array.prototype.sort` with comparator `(p1, p2) => p2[1] - p1[1]`. -/

namespace Latest

/-- `isNumber` of the newest variant: compares `charCodeAt(0)` against the
digit codes, i.e. only the first character is tested (`NaN` comparisons for
the empty string are `false`). -/
def isNumber (s : K) : Bool :=
  match s with
  | [] => false
  | c :: _ => isDigitCh c

/-- `separateWords(text, minWordReturnSize)` of the newest variant (default
word boundary; only the head character decides `isNumber`). -/
def separateWords (text : K) (minWordReturnSize : Nat) : List K :=
  (splitCh wordDelimCh text).filterMap fun singleWord =>
    let currentWord := lowerStr (trimCh singleWord)
    if minWordReturnSize < currentWord.length ∧ currentWord ≠ [] ∧
        isNumber currentWord = false
    then some currentWord else none

/-- `phraseToWordScores[phrase].add(keywordScores[word])`: the JS `Set`
stores object references, and the reference for a word is its (unique)
record in `keywordScores`, so the set is faithfully modelled by the
insertion-ordered duplicate-free list of word keys. -/
def addRef (l : List K) (w : K) : List K := if w ∈ l then l else l ++ [w]

/-- The inner per-word step of `generateScoredPhrases`: create the keyword
record if missing, add its reference to the phrase's set, then bump its
frequency by one and its degree by the phrase's `wordListDegree`. -/
def gspInner (phrase : K) (wordListDegree : ℚ)
    (st : List (K × List K) × List (K × (ℚ × ℚ))) (word : K) :
    List (K × List K) × List (K × (ℚ × ℚ)) :=
  let kw := if alMem st.2 word then st.2 else alSet st.2 word (0, 0)
  let pw := alSet st.1 phrase (addRef (alGetD st.1 phrase []) word)
  let fd := alGetD kw word (0, 0)
  (pw, alSet kw word (fd.1 + 1, fd.2 + wordListDegree))

/-- The per-phrase step of `generateScoredPhrases`: ensure the phrase's
score and reference-set records, bump the phrase frequency, then run the
per-word updates.  State components: phrase `(frequency, score)` records,
phrase reference sets, keyword `(frequency, degree)` records. -/
def gspStep (st : List (K × (ℚ × ℚ)) × List (K × List K) × List (K × (ℚ × ℚ)))
    (phrase : K) :
    List (K × (ℚ × ℚ)) × List (K × List K) × List (K × (ℚ × ℚ)) :=
  let ps := if alMem st.1 phrase then st.1 else alSet st.1 phrase (0, 0)
  let pw := if alMem st.2.1 phrase then st.2.1 else alSet st.2.1 phrase []
  let fs := alGetD ps phrase (0, 0)
  let ps := alSet ps phrase (fs.1 + 1, fs.2)
  let wordList := separateWords phrase 0
  let wordListDegree : ℚ := (wordList.length : ℚ) - 1
  let inner := wordList.foldl (gspInner phrase wordListDegree) (pw, st.2.2)
  (ps, inner.1, inner.2)

/-- `generateScoredPhrases(phraseList, minKeywordFrequency)` of the newest
variant.  Returns the phrase map (`frequency`, `score`) and the keyword map
(`frequency`, `degree`, `score`).  Note that a phrase whose frequency is
below `minKeywordFrequency` is skipped only in the score tally; its record
stays in the returned phrase map with score `0`. -/
def generateScoredPhrases (phraseList : List K) (minKeywordFrequency : Nat) :
    List (K × (ℚ × ℚ)) × List (K × (ℚ × ℚ × ℚ)) :=
  let st := phraseList.foldl gspStep ([], [], [])
  let keywordScores : List (K × (ℚ × ℚ × ℚ)) :=
    st.2.2.map fun e => (e.1, (e.2.1, e.2.2, e.2.2 / e.2.1))
  let phrases := st.2.1.foldl
    (fun ps e =>
      let fs := alGetD ps e.1 (0, 0)
      if fs.1 < (minKeywordFrequency : ℚ) then ps
      else
        alSet ps e.1
          (fs.1, fs.2 + (e.2.map fun w => (alGetD keywordScores w (0, 0, 0)).2.2).sum))
    st.1
  (phrases, keywordScores)

/-- The keyword-map part of `gspInner` in isolation: ensure the record,
then bump `(frequency, degree)` by `(1, wordListDegree)`. -/
def kwInner (deg : ℚ) (kw : List (K × (ℚ × ℚ))) (word : K) :
    List (K × (ℚ × ℚ)) :=
  let kw2 := if alMem kw word then kw else alSet kw word (0, 0)
  let fd := alGetD kw2 word (0, 0)
  alSet kw2 word (fd.1 + 1, fd.2 + deg)

/-- The keyword-map effect of one phrase of `gspStep`. -/
def kwPhraseStep (kw : List (K × (ℚ × ℚ))) (phrase : K) :
    List (K × (ℚ × ℚ)) :=
  (separateWords phrase 0).foldl
    (kwInner (((separateWords phrase 0).length : ℚ) - 1)) kw

/-- Number of occurrences of `w` among the constituent words of all phrase
occurrences of `phraseList`. -/
def wordFreqIn (phraseList : List K) (w : K) : Nat :=
  (phraseList.map fun ph => (separateWords ph 0).count w).sum

/-- Sum over all phrase occurrences of `(wordCount - 1)` weighted by the
number of occurrences of `w` inside the phrase. -/
def wordDegreeIn (phraseList : List K) (w : K) : ℚ :=
  (phraseList.map fun ph =>
    ((separateWords ph 0).count w : ℚ) *
      (((separateWords ph 0).length : ℚ) - 1)).sum

/-- The comparator `(p1, p2) => p2[1] - p1[1]` orders pairs by descending
score. -/
def scoreGeRel (p q : K × ℚ) : Prop := q.2 ≤ p.2

instance : DecidableRel scoreGeRel := fun p q =>
  inferInstanceAs (Decidable (q.2 ≤ p.2))

instance : IsTotal (K × ℚ) scoreGeRel := ⟨fun a b => le_total b.2 a.2⟩

instance : IsTrans (K × ℚ) scoreGeRel :=
  ⟨fun _ _ _ hab hbc => le_trans hbc hab⟩

/-- `keywordCandidatesPairs.sort((p1, p2) => p2[1] - p1[1])` of the newest
variant: `Array.prototype.sort` is required to be stable, and
`List.insertionSort` is a stable sort, so it computes the same list. -/
def rankDescendingPairs (pairs : List (K × ℚ)) : List (K × ℚ) :=
  List.insertionSort scoreGeRel pairs

end Latest

/-! ### Spec-modelled components

The current HEAD implementation exercised by `tst/index.spec.ts` (multi-word
phrase segmentation and the four-form POS lookup) is not among the shipped
`index.ts` variants; these parts are modelled from the spec. -/

/-- Modelled from the spec: a punctuation character of the segmenter is any
non-alphanumeric character (tokens contain no whitespace). -/
def isPunctCh (c : Char) : Bool := !(isAlnumCh c)

/-- Modelled from the spec: a token is a boundary if it is empty, a
stopword, or consists entirely of punctuation characters. -/
def segIsBoundary (stop : List K) (t : K) : Bool :=
  t.isEmpty || decide (t ∈ stop) || (!t.isEmpty && t.all isPunctCh)

/-- Modelled from the spec: strip a token's leading punctuation. -/
def segStripLead (t : K) : K := t.dropWhile isPunctCh

/-- Modelled from the spec: strip a token's trailing punctuation. -/
def segStripTrail (t : K) : K := (t.reverse.dropWhile isPunctCh).reverse

/-- Does the token begin with punctuation? -/
def segStartsPunct (t : K) : Bool :=
  match t with
  | [] => false
  | c :: _ => isPunctCh c

/-- Does the token end with punctuation? -/
def segEndsPunct (t : K) : Bool :=
  match t.reverse with
  | [] => false
  | c :: _ => isPunctCh c

/-- Join accumulated words with single spaces. -/
def joinSpace : List K → K
  | [] => []
  | [w] => w
  | w :: ws => w ++ ' ' :: joinSpace ws

/-- Modelled from the spec: flush the accumulated phrase (if non-empty)
into the output sequence. -/
def segFlush (out : List K) (cur : List K) : List K :=
  if cur.isEmpty then out else out ++ [joinSpace cur]

/-- Modelled from the spec: append a token to the current phrase; a token
that ends with punctuation is appended and immediately flushed, with the
punctuation stripped from the flushed string. -/
def segAppendWord (out : List K) (cur : List K) (t : K) : List K × List K :=
  if segEndsPunct t then (segFlush out (cur ++ [segStripTrail t]), [])
  else (out, cur ++ [t])

/-- Modelled from the spec: one segmentation step.  A boundary token
flushes; a token beginning with punctuation flushes the current phrase and
is reconsidered with its leading punctuation stripped; otherwise the token
accumulates into the current phrase. -/
def segStep (stop : List K) (st : List K × List K) (t : K) : List K × List K :=
  if segIsBoundary stop t then (segFlush st.1 st.2, [])
  else if segStartsPunct t then
    let t2 := segStripLead t
    let flushed := segFlush st.1 st.2
    if segIsBoundary stop t2 then (flushed, [])
    else segAppendWord flushed [] t2
  else segAppendWord st.1 st.2 t

/-- Modelled from the spec: `segment(text, stopwordSet)` — lowercase the
text, tokenize on whitespace, accumulate consecutive non-boundary tokens
into phrases joined by a single space, flushing at boundaries and at the
end of input. -/
def segment (text : String) (stop : List K) : List String :=
  let tokens := splitCh isWsCh (lowerStr text.data)
  let st := tokens.foldl (segStep stop) ([], [])
  (segFlush st.1 st.2).map String.mk

/-- ASCII uppercasing of one character. -/
def upperCh (c : Char) : Char :=
  if isLowerCh c then Char.ofNat (c.toNat - 32) else c

/-- Modelled from the spec: the fully-uppercased lookup form. -/
def upperStr (s : K) : K := s.map upperCh

/-- Modelled from the spec: the title-cased lookup form (first letter of
each space-separated word uppercased). -/
def titleCaseStr (s : K) : K :=
  joinSpace ((splitCh isSpaceCh s).map fun w =>
    match w with
    | [] => []
    | c :: rest => upperCh c :: rest)

/-- Modelled from the spec: the lookup form with every non-alphanumeric
character replaced by a space. -/
def nonAlnumToSpaces (s : K) : K :=
  s.map fun c => if isAlnumCh c then c else ' '

/-- Modelled from the spec: the deduplicated union of the tag results of
the four lookups (exact, uppercased, title-cased, non-alphanumeric
replaced by spaces). -/
def fourFormTags (brill : List (K × List String)) (kw : K) : List String :=
  (alGetD brill kw [] ++ alGetD brill (upperStr kw) [] ++
    alGetD brill (titleCaseStr kw) [] ++
    alGetD brill (nonAlnumToSpaces kw) []).dedup

/-- Modelled from the spec: the grammatical-role post-filter keeps a ranked
phrase iff its four-form tag union intersects the allowed tag set. -/
def posPostFilter (brill : List (K × List String)) (posAllowedSet : List String)
    (ranked : List K) : List K :=
  ranked.filter fun kw =>
    (fourFormTags brill kw).any fun t => posAllowedSet.contains t

/-! ### Association-list lemmas -/

section AssocListLemmas

variable {κ : Type} [DecidableEq κ] {α : Type}

theorem alGet?_alSet (m : List (κ × α)) (k : κ) (v : α) (k2 : κ) :
    alGet? (alSet m k v) k2 = if k = k2 then some v else alGet? m k2 := by
  induction m with
  | nil => simp [alGet?, alSet]
  | cons e m ih =>
    simp only [alSet]
    by_cases he : e.1 = k
    · subst he
      simp only [if_pos rfl, alGet?]
      by_cases h : e.1 = k2 <;> simp [h]
    · simp only [if_neg he, alGet?]
      by_cases h2 : e.1 = k2
      · have hkk : ¬k = k2 := fun h => he (h2.trans h.symm)
        simp [h2, hkk]
      · simp [h2, ih]

theorem alMem_iff_mem_alKeys (m : List (κ × α)) (k : κ) :
    alMem m k = true ↔ k ∈ alKeys m := by
  induction m with
  | nil => simp [alMem, alGet?, alKeys]
  | cons e m ih =>
    simp only [alMem, alGet?, alKeys, List.map_cons, List.mem_cons]
    by_cases he : e.1 = k
    · simp [he]
    · simp only [if_neg he, Option.isSome_some]
      simp only [alMem, alKeys] at ih
      rw [ih]
      constructor
      · exact Or.inr
      · rintro (h | h)
        · exact absurd h.symm he
        · exact h

theorem alKeys_alSet (m : List (κ × α)) (k : κ) (v : α) :
    alKeys (alSet m k v) = if alMem m k then alKeys m else alKeys m ++ [k] := by
  induction m with
  | nil => simp [alKeys, alSet, alMem, alGet?]
  | cons e m ih =>
    simp only [alSet, alMem, alGet?]
    by_cases he : e.1 = k
    · simp [he, alKeys]
    · simp only [if_neg he, alKeys, List.map_cons]
      simp only [alMem, alKeys] at ih
      by_cases hm : (alGet? m k).isSome = true
      · simp only [hm, if_pos rfl] at ih
        simp [hm, ih]
      · simp only [Bool.not_eq_true] at hm
        simp only [hm, Bool.false_eq_true, if_false] at ih
        simp [hm, ih]

theorem alGet?_eq_none_of_not_mem (m : List (κ × α)) (k : κ)
    (h : k ∉ alKeys m) : alGet? m k = none := by
  have h2 : ¬alMem m k = true := fun hm => h ((alMem_iff_mem_alKeys m k).mp hm)
  simp only [alMem, Bool.not_eq_true] at h2
  cases hg : alGet? m k with
  | none => rfl
  | some v => rw [hg] at h2; simp at h2

theorem alKeys_alSet_of_mem (m : List (κ × α)) (k : κ) (v : α)
    (h : k ∈ alKeys m) : alKeys (alSet m k v) = alKeys m := by
  rw [alKeys_alSet, if_pos ((alMem_iff_mem_alKeys m k).mpr h)]

theorem nodup_alKeys_alSet (m : List (κ × α)) (k : κ) (v : α)
    (h : (alKeys m).Nodup) : (alKeys (alSet m k v)).Nodup := by
  rw [alKeys_alSet]
  by_cases hm : alMem m k
  · simpa [hm] using h
  · have hk : k ∉ alKeys m := fun hk => hm ((alMem_iff_mem_alKeys m k).mpr hk)
    have hdisj : (alKeys m).Disjoint [k] := by
      intro a ha hak
      simp only [List.mem_singleton] at hak
      exact hk (hak ▸ ha)
    have : (alKeys m ++ [k]).Nodup :=
      List.nodup_append.mpr ⟨h, List.nodup_singleton k, hdisj⟩
    simpa [hm] using this


theorem alGet?_map_val {β : Type} (g : α → β) :
    ∀ (m : List (κ × α)) (k : κ),
      alGet? (m.map fun e => (e.1, g e.2)) k = (alGet? m k).map g := by
  intro m
  induction m with
  | nil => intro k; rfl
  | cons e m ih =>
    intro k
    by_cases he : e.1 = k <;> simp [alGet?, he, ih]

end AssocListLemmas

/-! ### Lemmas about `generateCandidateKeywordScores` -/

/-- The per-occurrence word-score sum of a phrase. -/
def phraseScoreSum (wordScore : List (K × ℚ)) (phrase : K) : ℚ :=
  ((separateWords phrase 0).map fun w => alGetD wordScore w 0).sum

theorem gcksInner_fold_get_other (wordScore : List (K × ℚ)) (phrase key : K)
    (hne : phrase ≠ key) :
    ∀ (wl : List K) (c : ℚ) (m : List (K × ℚ)),
      alGet? ((wl.foldl (gcksInner wordScore phrase) (c, m)).2) key =
        alGet? m key := by
  intro wl
  induction wl with
  | nil => intro c m; rfl
  | cons w wl ih =>
    intro c m
    simp only [List.foldl_cons, gcksInner]
    rw [ih]
    rw [alGet?_alSet]
    simp [hne]

theorem gcksInner_fold_get_self (wordScore : List (K × ℚ)) (phrase : K) :
    ∀ (wl : List K) (c : ℚ) (m : List (K × ℚ)),
      alGet? ((wl.foldl (gcksInner wordScore phrase) (c, m)).2) phrase =
        if wl = [] then alGet? m phrase
        else some (c + (wl.map fun w => alGetD wordScore w 0).sum) := by
  intro wl
  induction wl with
  | nil => intro c m; rfl
  | cons w wl ih =>
    intro c m
    simp only [List.foldl_cons, gcksInner, if_neg (List.cons_ne_nil w wl)]
    rw [ih]
    by_cases hwl : wl = []
    · subst hwl
      simp [alGet?_alSet]
    · simp only [if_neg hwl, List.map_cons, List.sum_cons]
      ring_nf

theorem gcksInner_fold_keys (wordScore : List (K × ℚ)) (phrase : K) :
    ∀ (wl : List K) (c : ℚ) (m : List (K × ℚ)), phrase ∈ alKeys m →
      alKeys ((wl.foldl (gcksInner wordScore phrase) (c, m)).2) = alKeys m := by
  intro wl
  induction wl with
  | nil => intro c m _; rfl
  | cons w wl ih =>
    intro c m hm
    simp only [List.foldl_cons, gcksInner]
    rw [ih _ _ (by rw [alKeys_alSet_of_mem m phrase _ hm]; exact hm)]
    exact alKeys_alSet_of_mem m phrase _ hm

theorem gcks_fold_get_eq_none (phraseList : List K) (wordScore : List (K × ℚ))
    (mf : Nat) (ph : K) (h1 : 1 < mf) (h2 : countOccurrences phraseList ph < mf) :
    ∀ (L : List K) (acc : List (K × ℚ)), alGet? acc ph = none →
      alGet? (L.foldl (gcksStep phraseList wordScore mf) acc) ph = none := by
  intro L
  induction L with
  | nil => intro acc hacc; exact hacc
  | cons q L ih =>
    intro acc hacc
    simp only [List.foldl_cons]
    refine ih _ ?_
    by_cases hq : 1 < mf ∧ countOccurrences phraseList q < mf
    · simp [gcksStep, hq, hacc]
    · have hqph : q ≠ ph := by
        intro hqe
        exact hq (hqe ▸ ⟨h1, h2⟩)
      simp only [gcksStep, if_neg hq]
      rw [gcksInner_fold_get_other _ _ _ hqph]
      by_cases hmem : alMem acc q
      · simp [hmem, hacc]
      · simp only [hmem, Bool.false_eq_true, if_false]
        rw [alGet?_alSet]
        simp [hqph, hacc]

theorem gcks_fold_get_eq_sum (phraseList : List K) (wordScore : List (K × ℚ))
    (mf : Nat) :
    ∀ (L : List K) (acc : List (K × ℚ)),
      (∀ p v, alGet? acc p = some v → v = phraseScoreSum wordScore p) →
      ∀ p v, alGet? (L.foldl (gcksStep phraseList wordScore mf) acc) p = some v →
        v = phraseScoreSum wordScore p := by
  intro L
  induction L with
  | nil => intro acc hacc; exact hacc
  | cons q L ih =>
    intro acc hacc
    refine ih _ ?_
    intro p v hv
    by_cases hq : 1 < mf ∧ countOccurrences phraseList q < mf
    · rw [gcksStep, if_pos hq] at hv
      exact hacc p v hv
    · rw [gcksStep, if_neg hq] at hv
      by_cases hpq : q = p
      · subst hpq
        rw [gcksInner_fold_get_self] at hv
        by_cases hwl : separateWords q 0 = []
        · rw [if_pos hwl] at hv
          by_cases hmem : alMem acc q
          · simp only [hmem, if_pos rfl] at hv
            exact hacc q v hv
          · simp only [hmem, Bool.false_eq_true, if_false] at hv
            rw [alGet?_alSet, if_pos rfl] at hv
            cases hv with
            | refl => simp [phraseScoreSum, hwl]
        · rw [if_neg hwl] at hv
          cases hv with
          | refl => simp [phraseScoreSum]
      · rw [gcksInner_fold_get_other _ _ _ hpq] at hv
        by_cases hmem : alMem acc q
        · simp only [hmem, if_pos rfl] at hv
          exact hacc p v hv
        · simp only [hmem, Bool.false_eq_true, if_false] at hv
          rw [alGet?_alSet, if_neg hpq] at hv
          exact hacc p v hv

theorem gcks_fold_keys_nodup (phraseList : List K) (wordScore : List (K × ℚ))
    (mf : Nat) :
    ∀ (L : List K) (acc : List (K × ℚ)), (alKeys acc).Nodup →
      (alKeys (L.foldl (gcksStep phraseList wordScore mf) acc)).Nodup := by
  intro L
  induction L with
  | nil => intro acc hacc; exact hacc
  | cons q L ih =>
    intro acc hacc
    refine ih _ ?_
    by_cases hq : 1 < mf ∧ countOccurrences phraseList q < mf
    · simpa [gcksStep, hq] using hacc
    · simp only [gcksStep, if_neg hq]
      by_cases hmem : alMem acc q
      · rw [if_pos hmem, gcksInner_fold_keys _ _ _ _ _
          ((alMem_iff_mem_alKeys acc q).mp hmem)]
        exact hacc
      · have hqk : q ∈ alKeys (alSet acc q 0) := by
          rw [alKeys_alSet]
          simp [hmem]
        rw [if_neg hmem, gcksInner_fold_keys _ _ _ _ _ hqk]
        exact nodup_alKeys_alSet _ _ _ hacc

/-! ### Lemmas about `Latest.generateScoredPhrases` -/

namespace Latest

theorem gspInner_snd (phrase : K) (deg : ℚ) :
    ∀ (wl : List K) (pw : List (K × List K)) (kw : List (K × (ℚ × ℚ))),
      (wl.foldl (gspInner phrase deg) (pw, kw)).2 = wl.foldl (kwInner deg) kw := by
  intro wl
  induction wl with
  | nil => intro pw kw; rfl
  | cons u wl ih =>
    intro pw kw
    simp only [List.foldl_cons]
    rw [show gspInner phrase deg (pw, kw) u =
      ((gspInner phrase deg (pw, kw) u).1, kwInner deg kw u) from rfl]
    exact ih _ _

theorem gspStep_kw
    (st : List (K × (ℚ × ℚ)) × List (K × List K) × List (K × (ℚ × ℚ)))
    (phrase : K) :
    (gspStep st phrase).2.2 = kwPhraseStep st.2.2 phrase := by
  simp only [gspStep, kwPhraseStep]
  rw [gspInner_snd]

theorem gspFold_kw :
    ∀ (PL : List K)
      (st : List (K × (ℚ × ℚ)) × List (K × List K) × List (K × (ℚ × ℚ))),
      (PL.foldl gspStep st).2.2 = PL.foldl kwPhraseStep st.2.2 := by
  intro PL
  induction PL with
  | nil => intro st; rfl
  | cons ph PL ih =>
    intro st
    simp only [List.foldl_cons]
    rw [ih, gspStep_kw]

theorem kwInner_get_other (deg : ℚ) (kw : List (K × (ℚ × ℚ))) (u w : K)
    (h : u ≠ w) : alGet? (kwInner deg kw u) w = alGet? kw w := by
  simp only [kwInner]
  by_cases hm : alMem kw u
  · rw [if_pos hm, alGet?_alSet, if_neg h]
  · rw [if_neg hm, alGet?_alSet, if_neg h, alGet?_alSet, if_neg h]

theorem kwInner_get_self (deg : ℚ) (kw : List (K × (ℚ × ℚ))) (w : K) :
    alGet? (kwInner deg kw w) w =
      some ((alGetD kw w (0, 0)).1 + 1, (alGetD kw w (0, 0)).2 + deg) := by
  simp only [kwInner]
  by_cases hm : alMem kw w
  · rw [if_pos hm, alGet?_alSet, if_pos rfl]
  · have hnone : alGet? kw w = none := by
      cases hg : alGet? kw w with
      | none => rfl
      | some v => rw [alMem, hg] at hm; simp at hm
    rw [if_neg hm, alGet?_alSet, if_pos rfl]
    simp only [alGetD, hnone, Option.getD_none]
    rw [alGet?_alSet, if_pos rfl]
    simp [alGetD]

theorem count_cons_ne (u w : K) (wl : List K) (hu : u ≠ w) :
    (u :: wl).count w = wl.count w := by
  simp [List.count_cons, hu, Ne.symm hu]

theorem kwFold_some (deg : ℚ) :
    ∀ (wl : List K) (kw : List (K × (ℚ × ℚ))) (w : K) (f d : ℚ),
      alGet? kw w = some (f, d) →
      alGet? (wl.foldl (kwInner deg) kw) w =
        some (f + (wl.count w : ℚ), d + (wl.count w : ℚ) * deg) := by
  intro wl
  induction wl with
  | nil => intro kw w f d h; simpa using h
  | cons u wl ih =>
    intro kw w f d h
    simp only [List.foldl_cons]
    by_cases hu : u = w
    · subst hu
      have hself := kwInner_get_self deg kw u
      rw [show alGetD kw u (0, 0) = (f, d) from by simp [alGetD, h]] at hself
      rw [ih _ _ _ _ hself, List.count_cons_self]
      push_cast
      simp only [Option.some.injEq, Prod.mk.injEq]
      constructor <;> ring
    · rw [ih _ _ _ _ ((kwInner_get_other deg kw u w hu).trans h),
        count_cons_ne u w wl hu]

theorem kwFold_none (deg : ℚ) :
    ∀ (wl : List K) (kw : List (K × (ℚ × ℚ))) (w : K),
      alGet? kw w = none →
      alGet? (wl.foldl (kwInner deg) kw) w =
        if wl.count w = 0 then none
        else some ((wl.count w : ℚ), (wl.count w : ℚ) * deg) := by
  intro wl
  induction wl with
  | nil => intro kw w h; simpa using h
  | cons u wl ih =>
    intro kw w h
    simp only [List.foldl_cons]
    by_cases hu : u = w
    · subst hu
      have hself := kwInner_get_self deg kw u
      rw [show alGetD kw u (0, 0) = (0, 0) from by simp [alGetD, h]] at hself
      simp only [zero_add] at hself
      rw [kwFold_some deg wl _ u 1 deg hself, List.count_cons_self]
      simp only [Nat.add_eq_zero, one_ne_zero, and_false, if_false]
      push_cast
      simp only [Option.some.injEq, Prod.mk.injEq]
      constructor <;> ring
    · rw [ih _ _ ((kwInner_get_other deg kw u w hu).trans h),
        count_cons_ne u w wl hu]

theorem wordFreqIn_cons (ph : K) (PL : List K) (w : K) :
    wordFreqIn (ph :: PL) w = (separateWords ph 0).count w + wordFreqIn PL w := by
  simp [wordFreqIn]

theorem wordDegreeIn_cons (ph : K) (PL : List K) (w : K) :
    wordDegreeIn (ph :: PL) w =
      ((separateWords ph 0).count w : ℚ) *
        (((separateWords ph 0).length : ℚ) - 1) + wordDegreeIn PL w := by
  simp [wordDegreeIn]

theorem kwPhrase_some :
    ∀ (PL : List K) (kw : List (K × (ℚ × ℚ))) (w : K) (f d : ℚ),
      alGet? kw w = some (f, d) →
      alGet? (PL.foldl kwPhraseStep kw) w =
        some (f + (wordFreqIn PL w : ℚ), d + wordDegreeIn PL w) := by
  intro PL
  induction PL with
  | nil =>
    intro kw w f d h
    simpa [wordFreqIn, wordDegreeIn] using h
  | cons ph PL ih =>
    intro kw w f d h
    simp only [List.foldl_cons]
    rw [ih _ _ _ _ (by
      simpa [kwPhraseStep] using
        kwFold_some (((separateWords ph 0).length : ℚ) - 1)
          (separateWords ph 0) kw w f d h)]
    rw [wordFreqIn_cons, wordDegreeIn_cons]
    push_cast
    simp only [Option.some.injEq, Prod.mk.injEq]
    constructor <;> ring

theorem kwPhrase_none :
    ∀ (PL : List K) (kw : List (K × (ℚ × ℚ))) (w : K),
      alGet? kw w = none →
      alGet? (PL.foldl kwPhraseStep kw) w =
        if wordFreqIn PL w = 0 then none
        else some ((wordFreqIn PL w : ℚ), wordDegreeIn PL w) := by
  intro PL
  induction PL with
  | nil =>
    intro kw w h
    simpa [wordFreqIn, wordDegreeIn] using h
  | cons ph PL ih =>
    intro kw w h
    simp only [List.foldl_cons]
    have hfold := kwFold_none (((separateWords ph 0).length : ℚ) - 1)
      (separateWords ph 0) kw w h
    by_cases hc : (separateWords ph 0).count w = 0
    · rw [if_pos hc] at hfold
      rw [ih _ _ (by simpa [kwPhraseStep] using hfold)]
      simp [wordFreqIn_cons, wordDegreeIn_cons, hc]
    · rw [if_neg hc] at hfold
      rw [kwPhrase_some PL _ w _ _ (by simpa [kwPhraseStep] using hfold)]
      have hne : wordFreqIn (ph :: PL) w ≠ 0 := by
        rw [wordFreqIn_cons]
        omega
      rw [if_neg hne, wordFreqIn_cons, wordDegreeIn_cons]
      push_cast
      rfl

end Latest

/-! ### Lemmas about the spec-modelled segmenter -/

theorem splitCh_ne_nil (p : Char → Bool) : ∀ l : List Char, splitCh p l ≠ [] := by
  intro l
  induction l with
  | nil => simp [splitCh]
  | cons c cs ih =>
    simp only [splitCh]
    cases h : splitCh p cs with
    | nil => exact absurd h ih
    | cons w ws =>
      by_cases hc : p c <;> simp [hc]

theorem splitCh_nosep (p : Char → Bool) :
    ∀ l : List Char, (∀ c ∈ l, p c = false) → splitCh p l = [l] := by
  intro l
  induction l with
  | nil => intro _; rfl
  | cons c cs ih =>
    intro h
    have hcs := ih fun c hc => h c (List.mem_cons_of_mem _ hc)
    simp [splitCh, hcs, h c (List.mem_cons_self c cs)]

theorem splitCh_sep_cons (p : Char → Bool) (c : Char) (l : List Char)
    (hc : p c = true) : splitCh p (c :: l) = [] :: splitCh p l := by
  simp only [splitCh]
  cases h : splitCh p l with
  | nil => exact absurd h (splitCh_ne_nil p l)
  | cons w ws => simp [hc]

theorem splitCh_nosep_append (p : Char → Bool) :
    ∀ (xs l : List Char), (∀ c ∈ xs, p c = false) →
      splitCh p (xs ++ l) = (xs ++ (splitCh p l).headI) :: (splitCh p l).tail := by
  intro xs
  induction xs with
  | nil =>
    intro l _
    cases h : splitCh p l with
    | nil => exact absurd h (splitCh_ne_nil p l)
    | cons w ws => simp [h]
  | cons x xs ih =>
    intro l h
    have hx := h x (List.mem_cons_self x xs)
    rw [List.cons_append]
    simp only [splitCh]
    rw [ih l fun c hc => h c (List.mem_cons_of_mem _ hc)]
    simp [hx]

theorem segIsBoundary_eq_false (stop : List K) (t : K) (h1 : t ≠ [])
    (h3 : t ∉ stop) (h4 : ∀ c ∈ t, isPunctCh c = false) :
    segIsBoundary stop t = false := by
  have hall : t.all isPunctCh = false := by
    cases t with
    | nil => exact absurd rfl h1
    | cons c cs =>
      simp only [List.all_cons, h4 c (List.mem_cons_self c cs),
        Bool.false_and]
  simp [segIsBoundary, h1, h3, hall]

theorem segStep_accumulates (stop : List K) (out cur : List K) (t : K)
    (h1 : t ≠ []) (h3 : t ∉ stop) (h4 : ∀ c ∈ t, isPunctCh c = false) :
    segStep stop (out, cur) t = (out, cur ++ [t]) := by
  have hb := segIsBoundary_eq_false stop t h1 h3 h4
  have hstart : segStartsPunct t = false := by
    cases t with
    | nil => exact absurd rfl h1
    | cons c cs => simpa [segStartsPunct] using h4 c (List.mem_cons_self c cs)
  have hend : segEndsPunct t = false := by
    cases ht : t.reverse with
    | nil => exact absurd (by simpa using congrArg List.reverse ht) h1
    | cons c cs =>
      have hc : c ∈ t := by
        rw [← List.mem_reverse, ht]
        exact List.mem_cons_self c cs
      simp [segEndsPunct, ht, h4 c hc]
  simp [segStep, hb, hstart, segAppendWord, hend]

/-! ### Lemmas for monotonic filtering -/

theorem foldl_append_factor {α β : Type} (f : List β → α → List β)
    (g : α → List β) (hf : ∀ a x, f a x = a ++ g x) :
    ∀ (l : List α) (acc : List β), l.foldl f acc = acc ++ l.foldl f [] := by
  intro l
  induction l with
  | nil => intro acc; simp
  | cons s l ih =>
    intro acc
    simp only [List.foldl_cons]
    rw [ih (f acc s), ih (f [] s), hf acc s, hf [] s]
    simp [List.append_assoc]

theorem gck_filterMap_eq (stop : List K) (mc mw : Nat) :
    ∀ phrases : List K,
      (phrases.filterMap fun ph =>
        let phrase := lowerStr (trimCh ph)
        if phrase ≠ [] ∧ isAcceptable phrase mc mw = true ∧ phrase ∉ stop
        then some phrase else none) =
      (phrases.map fun ph => lowerStr (trimCh ph)).filter
        (phraseAccept stop mc mw) := by
  intro phrases
  induction phrases with
  | nil => rfl
  | cons ph l ih =>
    simp only [List.filterMap_cons, List.map_cons, List.filter_cons]
    by_cases h : lowerStr (trimCh ph) ≠ [] ∧
        isAcceptable (lowerStr (trimCh ph)) mc mw = true ∧
        lowerStr (trimCh ph) ∉ stop
    · simp only [h, if_pos, phraseAccept, decide_eq_true_eq, ih]
      simp [h]
    · simp only [phraseAccept, decide_eq_true_eq]
      simp [h, ih, phraseAccept]

theorem gck_eq_filter (sl : List K) (stop : List K) (mc mw : Nat) :
    generateCandidateKeywords sl stop mc mw =
      (candidateTokens sl).filter (phraseAccept stop mc mw) := by
  induction sl with
  | nil => rfl
  | cons s sl ih =>
    have hg : generateCandidateKeywords (s :: sl) stop mc mw =
        ((splitCh isSpaceCh (collapseWs (s.filter keepWordOrSpaceCh))).filterMap
          fun ph =>
            let phrase := lowerStr (trimCh ph)
            if phrase ≠ [] ∧ isAcceptable phrase mc mw = true ∧ phrase ∉ stop
            then some phrase else none) ++
          generateCandidateKeywords sl stop mc mw := by
      show List.foldl _ _ (s :: sl) = _
      rw [List.foldl_cons,
        foldl_append_factor _
          (fun sentence =>
            (splitCh isSpaceCh (collapseWs (sentence.filter keepWordOrSpaceCh))).filterMap
              fun ph =>
                let phrase := lowerStr (trimCh ph)
                if phrase ≠ [] ∧ isAcceptable phrase mc mw = true ∧ phrase ∉ stop
                then some phrase else none)
          (fun a x => rfl) sl]
      rfl
    have hc : candidateTokens (s :: sl) =
        ((splitCh isSpaceCh (collapseWs (s.filter keepWordOrSpaceCh))).map
          fun ph => lowerStr (trimCh ph)) ++ candidateTokens sl := by
      show List.foldl _ _ (s :: sl) = _
      rw [List.foldl_cons,
        foldl_append_factor _
          (fun sentence =>
            (splitCh isSpaceCh (collapseWs (sentence.filter keepWordOrSpaceCh))).map
              fun ph => lowerStr (trimCh ph))
          (fun a x => rfl) sl]
      rfl
    rw [hg, hc, List.filter_append, ih, gck_filterMap_eq]

theorem isAcceptable_iff (ph : K) (mc mw : Nat) :
    isAcceptable ph mc mw = true ↔
      mc ≤ ph.length ∧ (splitCh isSpaceCh ph).length ≤ mw ∧
      ph.countP isAlphaCh ≠ 0 ∧ ph.countP isDigitCh ≤ ph.countP isAlphaCh := by
  simp only [isAcceptable]
  constructor
  · intro h
    split_ifs at h with h1 h2 h3 h4
    all_goals first | exact (Bool.false_ne_true h).elim | omega
  · intro h
    split_ifs with h1 h2 h3 h4
    all_goals first | rfl | omega

theorem phraseAccept_mono (stop : List K) (mc mc' mw mw' : Nat) (ph : K)
    (hmc : mc ≤ mc') (hmw : mw' ≤ mw)
    (h : phraseAccept stop mc' mw' ph = true) :
    phraseAccept stop mc mw ph = true := by
  simp only [phraseAccept, decide_eq_true_eq] at h ⊢
  obtain ⟨hne, hacc, hstop⟩ := h
  refine ⟨hne, ?_, hstop⟩
  rw [isAcceptable_iff] at hacc ⊢
  omega

theorem countOccurrences_eq_count (n : K) :
    ∀ l : List K, countOccurrences l n = l.count n := by
  suffices h : ∀ (l : List K) (acc : Nat),
      l.foldl (fun k v => k + if v = n then 1 else 0) acc = acc + l.count n by
    intro l
    simpa [countOccurrences] using h l 0
  intro l
  induction l with
  | nil => intro acc; simp
  | cons v l ih =>
    intro acc
    simp only [List.foldl_cons, ih]
    by_cases hv : v = n <;> (simp [List.count_cons, hv]; try omega)

theorem countOccurrences_filter (l : List K) (p : K → Bool) (ph : K)
    (h : p ph = true) :
    countOccurrences (l.filter p) ph = countOccurrences l ph := by
  rw [countOccurrences_eq_count, countOccurrences_eq_count,
    List.count_filter h]

theorem gcks_fold_keys_mem (PL : List K) (ws : List (K × ℚ)) (mf : Nat) :
    ∀ (L : List K) (acc : List (K × ℚ)) (ph : K),
      ph ∈ alKeys (L.foldl (gcksStep PL ws mf) acc) ↔
        ph ∈ alKeys acc ∨
          (ph ∈ L ∧ ¬(1 < mf ∧ countOccurrences PL ph < mf)) := by
  intro L
  induction L with
  | nil => intro acc ph; simp
  | cons q L ih =>
    intro acc ph
    simp only [List.foldl_cons]
    rw [ih]
    by_cases hq : 1 < mf ∧ countOccurrences PL q < mf
    · rw [show gcksStep PL ws mf acc q = acc from by simp [gcksStep, hq]]
      constructor
      · rintro (h | h)
        · exact Or.inl h
        · exact Or.inr ⟨List.mem_cons_of_mem q h.1, h.2⟩
      · rintro (h | ⟨hm, hp⟩)
        · exact Or.inl h
        · rcases List.mem_cons.mp hm with rfl | hm2
          · exact absurd hq hp
          · exact Or.inr ⟨hm2, hp⟩
    · have hkeys : ∀ x, x ∈ alKeys (gcksStep PL ws mf acc q) ↔
          x ∈ alKeys acc ∨ x = q := by
        intro x
        simp only [gcksStep, if_neg hq]
        by_cases hmem : alMem acc q
        · rw [if_pos hmem, gcksInner_fold_keys _ _ _ _ _
            ((alMem_iff_mem_alKeys acc q).mp hmem)]
          constructor
          · exact Or.inl
          · rintro (h | rfl)
            · exact h
            · exact (alMem_iff_mem_alKeys acc x).mp hmem
        · have hqk : q ∈ alKeys (alSet acc q 0) := by
            rw [alKeys_alSet]
            simp [hmem]
          rw [if_neg hmem, gcksInner_fold_keys _ _ _ _ _ hqk, alKeys_alSet]
          simp [hmem]
      rw [hkeys ph]
      constructor
      · rintro ((h | rfl) | ⟨hm, hp⟩)
        · exact Or.inl h
        · exact Or.inr ⟨List.mem_cons_self _ _, hq⟩
        · exact Or.inr ⟨List.mem_cons_of_mem _ hm, hp⟩
      · rintro (h | ⟨hm, hp⟩)
        · exact Or.inl (Or.inl h)
        · rcases List.mem_cons.mp hm with rfl | hm2
          · exact Or.inl (Or.inr rfl)
          · exact Or.inr ⟨hm2, hp⟩

theorem gcks_keys_mem (PL : List K) (ws : List (K × ℚ)) (mf : Nat) (ph : K) :
    ph ∈ alKeys (generateCandidateKeywordScores PL ws mf) ↔
      ph ∈ PL ∧ ¬(1 < mf ∧ countOccurrences PL ph < mf) := by
  unfold generateCandidateKeywordScores
  rw [gcks_fold_keys_mem]
  simp [alKeys]

theorem sortedKeywordKeys_perm (kc : List (K × ℚ)) :
    (sortedKeywordKeys kc).Perm (alKeys kc) :=
  List.Perm.map Prod.fst
    ((List.reverse_perm _).trans (List.perm_insertionSort _ _))

theorem extract_length_antitone (stopWordSet : List K)
    (brill : List (K × List String)) (posAllowedList : List String)
    (text : String) (mc mc' mw mw' mf mf' : Nat)
    (hmc : mc ≤ mc') (hmw : mw' ≤ mw) (hmf : mf ≤ mf') :
    (extractWithRakePos stopWordSet brill posAllowedList mc' mw' mf' text).length ≤
      (extractWithRakePos stopWordSet brill posAllowedList mc mw mf text).length := by
  have hlen : ∀ (mcx mwx mfx : Nat),
      (extractWithRakePos stopWordSet brill posAllowedList mcx mwx mfx text).length =
        ((alKeys (generateCandidateKeywordScores
            (generateCandidateKeywords (splitSentences text) stopWordSet mcx mwx)
            (calculateWordScores
              (generateCandidateKeywords (splitSentences text) stopWordSet mcx mwx))
            mfx)).filter (posKeep brill posAllowedList)).length := by
    intro mcx mwx mfx
    rw [show extractWithRakePos stopWordSet brill posAllowedList mcx mwx mfx text =
      ((sortedKeywordKeys (generateCandidateKeywordScores
          (generateCandidateKeywords (splitSentences text) stopWordSet mcx mwx)
          (calculateWordScores
            (generateCandidateKeywords (splitSentences text) stopWordSet mcx mwx))
          mfx)).filter (posKeep brill posAllowedList)).map String.mk from rfl]
    rw [List.length_map]
    exact ((sortedKeywordKeys_perm _).filter _).length_eq
  rw [hlen, hlen]
  have hnodup : ∀ (mcx mwx mfx : Nat),
      (alKeys (generateCandidateKeywordScores
        (generateCandidateKeywords (splitSentences text) stopWordSet mcx mwx)
        (calculateWordScores
          (generateCandidateKeywords (splitSentences text) stopWordSet mcx mwx))
        mfx)).Nodup := by
    intro mcx mwx mfx
    refine gcks_fold_keys_nodup _ _ _ _ [] ?_
    simp [alKeys]
  have hsub : ∀ ph, ph ∈ alKeys (generateCandidateKeywordScores
      (generateCandidateKeywords (splitSentences text) stopWordSet mc' mw')
      (calculateWordScores
        (generateCandidateKeywords (splitSentences text) stopWordSet mc' mw'))
      mf') →
    ph ∈ alKeys (generateCandidateKeywordScores
      (generateCandidateKeywords (splitSentences text) stopWordSet mc mw)
      (calculateWordScores
        (generateCandidateKeywords (splitSentences text) stopWordSet mc mw))
      mf) := by
    intro ph h
    rw [gcks_keys_mem] at h ⊢
    obtain ⟨hmem, hpass⟩ := h
    rw [gck_eq_filter] at hmem
    have haccept2 : phraseAccept stopWordSet mc' mw' ph = true :=
      (List.mem_filter.mp hmem).2
    have htok : ph ∈ candidateTokens (splitSentences text) :=
      (List.mem_filter.mp hmem).1
    have haccept1 : phraseAccept stopWordSet mc mw ph = true :=
      phraseAccept_mono stopWordSet mc mc' mw mw' ph hmc hmw haccept2
    have hcount2 : countOccurrences
        (generateCandidateKeywords (splitSentences text) stopWordSet mc' mw') ph =
        countOccurrences (candidateTokens (splitSentences text)) ph := by
      rw [gck_eq_filter]
      exact countOccurrences_filter _ _ _ haccept2
    have hcount1 : countOccurrences
        (generateCandidateKeywords (splitSentences text) stopWordSet mc mw) ph =
        countOccurrences (candidateTokens (splitSentences text)) ph := by
      rw [gck_eq_filter]
      exact countOccurrences_filter _ _ _ haccept1
    refine ⟨by rw [gck_eq_filter]; exact List.mem_filter.mpr ⟨htok, haccept1⟩, ?_⟩
    rintro ⟨hmf1, hcnt1⟩
    exact hpass ⟨lt_of_lt_of_le hmf1 hmf, by omega⟩
  have hfsub : ∀ x, x ∈ (alKeys (generateCandidateKeywordScores
      (generateCandidateKeywords (splitSentences text) stopWordSet mc' mw')
      (calculateWordScores
        (generateCandidateKeywords (splitSentences text) stopWordSet mc' mw'))
      mf')).filter (posKeep brill posAllowedList) →
    x ∈ (alKeys (generateCandidateKeywordScores
      (generateCandidateKeywords (splitSentences text) stopWordSet mc mw)
      (calculateWordScores
        (generateCandidateKeywords (splitSentences text) stopWordSet mc mw))
      mf)).filter (posKeep brill posAllowedList) := by
    intro x hx
    have := List.mem_filter.mp hx
    exact List.mem_filter.mpr ⟨hsub x this.1, this.2⟩
  exact (((hnodup mc' mw' mf').filter _).subperm hfsub).length_le

/-! ### Claim theorems -/

/-- C8: `extractWithRakePos` applied to the empty string returns the empty
sequence (and, through the language wrapper with any known language code,
`some []`) instead of raising an error. -/
theorem c8_empty_text_gives_empty_result :
    (∀ (stopWordSet : List K) (brill : List (K × List String))
        (posAllowedList : List String) (mc mw mf : Nat),
      extractWithRakePos stopWordSet brill posAllowedList mc mw mf "" = []) ∧
    (∀ (table : List (String × List K)) (language : String)
        (additionalStopWordSet : List K) (brill : List (K × List String))
        (posAllowedList : List String) (mc mw mf : Nat) (base : List K),
      alGet? table language = some base →
      extractWithRakePosLang table language additionalStopWordSet brill
        posAllowedList mc mw mf "" = some []) := by
  constructor
  · intro stopWordSet brill posAllowedList mc mw mf
    rfl
  · intro table language additionalStopWordSet brill posAllowedList mc mw mf base h
    simp only [extractWithRakePosLang, h]
    rfl

/-- C8 witness: a concrete run of both conjuncts. -/
theorem c8_empty_text_gives_empty_result_witness :
    extractWithRakePos [['t','h','e']] [(['a','b'], ["NN"])] ["NN"] 1 5 1 "" = [] ∧
    extractWithRakePosLang [("en", [['t','h','e']])] "en" [] [(['a','b'], ["NN"])]
      ["NN"] 1 5 1 "" = some [] :=
  ⟨c8_empty_text_gives_empty_result.1 [['t','h','e']] [(['a','b'], ["NN"])]
      ["NN"] 1 5 1,
    c8_empty_text_gives_empty_result.2 [("en", [['t','h','e']])] "en" []
      [(['a','b'], ["NN"])] ["NN"] 1 5 1 [['t','h','e']] (by decide)⟩

/-- C7: on a language code absent from the stopword table the code does not
fall back to an empty stopword set: it dereferences the `undefined` table
entry and aborts with a `TypeError` (modelled as `none`) instead of
returning a result.  Evaluated at the concrete failing input
`language = "xx"` over a table that only knows `"en"`. -/
theorem c7_unknown_language_faults :
    extractWithRakePosLang [("en", [['t','h','e']])] "xx" [] [(['a','b'], ["NN"])]
      ["NN"] 1 5 1 "ab cat" = none ∧
    extractWithRakePos [] [(['a','b'], ["NN"])] ["NN"] 1 5 1 "ab cat" = ["ab"] := by
  constructor
  · decide
  · decide

/-- C9: for fixed text and fixed other options, increasing `minCharLength`,
increasing `minKeywordFrequency`, or decreasing `maxWordsLength` never
increases the number of strings returned by `extractWithRakePos`. -/
theorem c9_monotonic_filtering (stopWordSet : List K)
    (brill : List (K × List String)) (posAllowedList : List String)
    (text : String) :
    (∀ mc mc' mw mf, mc ≤ mc' →
      (extractWithRakePos stopWordSet brill posAllowedList mc' mw mf text).length ≤
        (extractWithRakePos stopWordSet brill posAllowedList mc mw mf text).length) ∧
    (∀ mc mw mf mf', mf ≤ mf' →
      (extractWithRakePos stopWordSet brill posAllowedList mc mw mf' text).length ≤
        (extractWithRakePos stopWordSet brill posAllowedList mc mw mf text).length) ∧
    (∀ mc mw mw' mf, mw' ≤ mw →
      (extractWithRakePos stopWordSet brill posAllowedList mc mw' mf text).length ≤
        (extractWithRakePos stopWordSet brill posAllowedList mc mw mf text).length) :=
  ⟨fun mc mc' mw mf hmc =>
      extract_length_antitone stopWordSet brill posAllowedList text
        mc mc' mw mw mf mf hmc le_rfl le_rfl,
    fun mc mw mf mf' hmf =>
      extract_length_antitone stopWordSet brill posAllowedList text
        mc mc mw mw mf mf' le_rfl le_rfl hmf,
    fun mc mw mw' mf hmw =>
      extract_length_antitone stopWordSet brill posAllowedList text
        mc mc mw mw' mf mf le_rfl hmw le_rfl⟩

/-- C9 witness: concrete instances of the three monotonicity statements on
the text `"a ab cat"`. -/
theorem c9_monotonic_filtering_witness :
    ((extractWithRakePos [] [(['a'], ["NN"]), (['a','b'], ["NN"]),
        (['c','a','t'], ["NN"])] ["NN"] 2 5 1 "a ab cat").length ≤
      (extractWithRakePos [] [(['a'], ["NN"]), (['a','b'], ["NN"]),
        (['c','a','t'], ["NN"])] ["NN"] 1 5 1 "a ab cat").length) ∧
    ((extractWithRakePos [] [(['a'], ["NN"]), (['a','b'], ["NN"]),
        (['c','a','t'], ["NN"])] ["NN"] 1 5 2 "a ab cat").length ≤
      (extractWithRakePos [] [(['a'], ["NN"]), (['a','b'], ["NN"]),
        (['c','a','t'], ["NN"])] ["NN"] 1 5 1 "a ab cat").length) ∧
    ((extractWithRakePos [] [(['a'], ["NN"]), (['a','b'], ["NN"]),
        (['c','a','t'], ["NN"])] ["NN"] 1 4 1 "a ab cat").length ≤
      (extractWithRakePos [] [(['a'], ["NN"]), (['a','b'], ["NN"]),
        (['c','a','t'], ["NN"])] ["NN"] 1 5 1 "a ab cat").length) :=
  ⟨(c9_monotonic_filtering [] [(['a'], ["NN"]), (['a','b'], ["NN"]),
      (['c','a','t'], ["NN"])] ["NN"] "a ab cat").1 1 2 5 1 (by decide),
    (c9_monotonic_filtering [] [(['a'], ["NN"]), (['a','b'], ["NN"]),
      (['c','a','t'], ["NN"])] ["NN"] "a ab cat").2.1 1 5 1 2 (by decide),
    (c9_monotonic_filtering [] [(['a'], ["NN"]), (['a','b'], ["NN"]),
      (['c','a','t'], ["NN"])] ["NN"] "a ab cat").2.2 1 5 4 1 (by decide)⟩

/-- C1: two consecutive tokens that are neither stopwords nor punctuation
accumulate into one candidate phrase joined by a single space, so the
segmenter's output contains a phrase string with an internal space (a
multi-word phrase). -/
theorem c1_consecutive_tokens_accumulate_into_one_phrase
    (a b : K) (stop : List K)
    (ha1 : a ≠ []) (ha2 : lowerStr a = a) (ha3 : a ∉ stop)
    (ha4 : ∀ c ∈ a, isWsCh c = false ∧ isPunctCh c = false)
    (hb1 : b ≠ []) (hb2 : lowerStr b = b) (hb3 : b ∉ stop)
    (hb4 : ∀ c ∈ b, isWsCh c = false ∧ isPunctCh c = false) :
    segment (String.mk (a ++ ' ' :: b)) stop = [String.mk (a ++ ' ' :: b)] ∧
    ' ' ∈ a ++ ' ' :: b := by
  refine ⟨?_, by simp⟩
  have hlow : lowerStr (a ++ ' ' :: b) = a ++ ' ' :: b := by
    simp only [lowerStr] at ha2 hb2 ⊢
    rw [List.map_append, List.map_cons, ha2, hb2,
      show lowerCh ' ' = ' ' from by decide]
  have htok : splitCh isWsCh (a ++ ' ' :: b) = [a, b] := by
    rw [splitCh_nosep_append isWsCh a (' ' :: b) fun c hc => (ha4 c hc).1,
      splitCh_sep_cons isWsCh ' ' b (by decide),
      splitCh_nosep isWsCh b fun c hc => (hb4 c hc).1]
    simp
  show (segFlush (List.foldl (segStep stop) ([], [])
      (splitCh isWsCh (lowerStr (String.mk (a ++ ' ' :: b)).data))).1 _).map
        String.mk = _
  rw [show (String.mk (a ++ ' ' :: b)).data = a ++ ' ' :: b from rfl, hlow, htok]
  rw [List.foldl_cons, segStep_accumulates stop [] [] a ha1 ha3
      fun c hc => (ha4 c hc).2]
  simp only [List.nil_append]
  rw [List.foldl_cons, segStep_accumulates stop [] [a] b hb1 hb3
      fun c hc => (hb4 c hc).2]
  rw [List.foldl_nil]
  simp [segFlush, joinSpace]

/-- C1 witness: `"red apple"` with no stopwords segments into the single
multi-word phrase `"red apple"`. -/
theorem c1_consecutive_tokens_accumulate_into_one_phrase_witness :
    segment (String.mk (['r','e','d'] ++ ' ' :: ['a','p','p','l','e'])) [] =
      [String.mk (['r','e','d'] ++ ' ' :: ['a','p','p','l','e'])] ∧
    ' ' ∈ ['r','e','d'] ++ ' ' :: ['a','p','p','l','e'] :=
  c1_consecutive_tokens_accumulate_into_one_phrase
    ['r','e','d'] ['a','p','p','l','e'] []
    (by decide) (by decide) (by decide) (by decide)
    (by decide) (by decide) (by decide) (by decide)

/-- C6: the grammatical-role post-filter keeps a ranked phrase iff the
deduplicated union of the tag results of the four lookup forms (exact,
fully-uppercased, title-cased, non-alphanumeric replaced by spaces)
intersects the allowed tag set. -/
theorem c6_pos_filter_keeps_iff_four_form_union_intersects
    (brill : List (K × List String)) (posAllowedSet : List String)
    (ranked : List K) (kw : K) :
    kw ∈ posPostFilter brill posAllowedSet ranked ↔
      kw ∈ ranked ∧ ∃ t,
        (t ∈ alGetD brill kw [] ∨ t ∈ alGetD brill (upperStr kw) [] ∨
          t ∈ alGetD brill (titleCaseStr kw) [] ∨
          t ∈ alGetD brill (nonAlnumToSpaces kw) []) ∧
        t ∈ posAllowedSet := by
  simp only [posPostFilter, List.mem_filter, List.any_eq_true, fourFormTags,
    List.mem_dedup, List.mem_append, List.contains, List.elem_iff]
  constructor
  · rintro ⟨hr, t, ht, hta⟩
    exact ⟨hr, t, by tauto, hta⟩
  · rintro ⟨hr, t, ht, hta⟩
    exact ⟨hr, t, by tauto, hta⟩

/-- C2: every word present in the keyword statistics of the co-occurrence
scorer has frequency equal to its number of occurrences, degree equal to
the sum of `(wordCount - 1)` over the phrase occurrences containing it, and
score exactly `degree / frequency` — nothing else (in particular not the
word's own frequency) is added to the degree before dividing. -/
theorem c2_word_score_is_degree_over_frequency
    (phraseList : List K) (mf : Nat) (w : K) (t : ℚ × ℚ × ℚ)
    (h : alGet? (Latest.generateScoredPhrases phraseList mf).2 w = some t) :
    t = ((Latest.wordFreqIn phraseList w : ℚ), Latest.wordDegreeIn phraseList w,
          Latest.wordDegreeIn phraseList w / (Latest.wordFreqIn phraseList w : ℚ)) := by
  have hmap : (Latest.generateScoredPhrases phraseList mf).2 =
      (phraseList.foldl Latest.gspStep ([], [], [])).2.2.map
        (fun e => (e.1, (e.2.1, e.2.2, e.2.2 / e.2.1))) := rfl
  rw [hmap] at h
  rw [alGet?_map_val (fun p : ℚ × ℚ => (p.1, p.2, p.2 / p.1))] at h
  rw [Latest.gspFold_kw] at h
  rw [show ((([], [], []) :
      List (K × (ℚ × ℚ)) × List (K × List K) × List (K × (ℚ × ℚ)))).2.2 =
    ([] : List (K × (ℚ × ℚ))) from rfl] at h
  rw [Latest.kwPhrase_none phraseList [] w rfl] at h
  by_cases hf : Latest.wordFreqIn phraseList w = 0
  · rw [if_pos hf] at h
    simp at h
  · rw [if_neg hf] at h
    simp only [Option.map_some'] at h
    exact (Option.some.inj h).symm

/-- C2 witness: for phrases `"cat dog"`, `"cat"`, the word `cat` gets
frequency `2`, degree `1` (from `2 - 1` and `1 - 1`) and score `1/2`. -/
theorem c2_word_score_is_degree_over_frequency_witness :
    alGet? (Latest.generateScoredPhrases
        [['c','a','t',' ','d','o','g'], ['c','a','t']] 1).2 ['c','a','t'] =
      some (2, 1, 1 / 2) ∧
    ((2 : ℚ), (1 : ℚ), (1 : ℚ) / 2) =
      ((Latest.wordFreqIn [['c','a','t',' ','d','o','g'], ['c','a','t']]
          ['c','a','t'] : ℚ),
        Latest.wordDegreeIn [['c','a','t',' ','d','o','g'], ['c','a','t']]
          ['c','a','t'],
        Latest.wordDegreeIn [['c','a','t',' ','d','o','g'], ['c','a','t']]
            ['c','a','t'] /
          (Latest.wordFreqIn [['c','a','t',' ','d','o','g'], ['c','a','t']]
            ['c','a','t'] : ℚ)) :=
  ⟨by decide,
    c2_word_score_is_degree_over_frequency
      [['c','a','t',' ','d','o','g'], ['c','a','t']] 1 ['c','a','t']
      (2, 1, 1 / 2) (by decide)⟩

/-- C3: every phrase retained in the scored map has score equal to the sum,
over each word occurrence inside the phrase, of that word's computed word
score; a repeated word contributes once per occurrence. -/
theorem c3_phrase_score_is_per_occurrence_sum
    (phraseList : List K) (mf : Nat) (phrase : K) (s : ℚ)
    (h : alGet? (generateCandidateKeywordScores phraseList
          (calculateWordScores phraseList) mf) phrase = some s) :
    s = ((separateWords phrase 0).map
          fun w => alGetD (calculateWordScores phraseList) w 0).sum :=
  gcks_fold_get_eq_sum phraseList (calculateWordScores phraseList) mf
    phraseList [] (fun p v hv => by simp [alGet?] at hv) phrase s h

/-- C3 witness: the phrase `"cat cat"` repeats the word `cat` (scored `2`);
its phrase score is `4 = 2 + 2`, once per occurrence. -/
theorem c3_phrase_score_is_per_occurrence_sum_witness :
    alGet? (generateCandidateKeywordScores [['c','a','t',' ','c','a','t']]
        (calculateWordScores [['c','a','t',' ','c','a','t']]) 1)
      ['c','a','t',' ','c','a','t'] = some 4 ∧
    (4 : ℚ) = ((separateWords ['c','a','t',' ','c','a','t'] 0).map
      fun w => alGetD (calculateWordScores [['c','a','t',' ','c','a','t']]) w 0).sum :=
  ⟨by decide,
    c3_phrase_score_is_per_occurrence_sum [['c','a','t',' ','c','a','t']] 1
      ['c','a','t',' ','c','a','t'] 4 (by decide)⟩

/-- C4: a phrase whose occurrence count among the filtered phrases is below
`minKeywordFrequency` is absent from the scored map (not merely scored
low), and for the concrete scenario `"ab ab cat"` with
`minKeywordFrequency = 2` and allowed tags `{NN}` the extractor returns
exactly `["ab"]`. -/
theorem c4_below_min_frequency_phrases_are_dropped :
    (∀ (phraseList : List K) (wordScore : List (K × ℚ)) (mf : Nat) (phrase : K),
      1 < mf → countOccurrences phraseList phrase < mf →
      alGet? (generateCandidateKeywordScores phraseList wordScore mf) phrase =
        none) ∧
    extractWithRakePos [] [(['a','b'], ["NN"]), (['c','a','t'], ["NN"])] ["NN"]
      1 5 2 "ab ab cat" = ["ab"] := by
  constructor
  · intro phraseList wordScore mf phrase h1 h2
    exact gcks_fold_get_eq_none phraseList wordScore mf phrase h1 h2
      phraseList [] rfl
  · decide

/-- C4 witness: `cat` occurs once among `[ab, ab, cat]`, below the
threshold `2`, and is indeed absent from the scored map. -/
theorem c4_below_min_frequency_phrases_are_dropped_witness :
    alGet? (generateCandidateKeywordScores
        [['a','b'], ['a','b'], ['c','a','t']] [] 2) ['c','a','t'] = none :=
  c4_below_min_frequency_phrases_are_dropped.1
    [['a','b'], ['a','b'], ['c','a','t']] [] 2 ['c','a','t']
    (by decide) (by decide)

/-- C10: the extractor's output never contains duplicate strings: candidate
phrases are collapsed as keys of the score map before ranking. -/
theorem c10_output_has_no_duplicates (stopWordSet : List K)
    (brill : List (K × List String)) (posAllowedList : List String)
    (mc mw mf : Nat) (text : String) :
    (extractWithRakePos stopWordSet brill posAllowedList mc mw mf text).Nodup := by
  have hkeys : (alKeys (generateCandidateKeywordScores
      (generateCandidateKeywords (splitSentences text) stopWordSet mc mw)
      (calculateWordScores
        (generateCandidateKeywords (splitSentences text) stopWordSet mc mw))
      mf)).Nodup := by
    refine gcks_fold_keys_nodup _ _ _ _ [] ?_
    simp [alKeys]
  have hperm : (sortedKeywordKeys (generateCandidateKeywordScores
      (generateCandidateKeywords (splitSentences text) stopWordSet mc mw)
      (calculateWordScores
        (generateCandidateKeywords (splitSentences text) stopWordSet mc mw))
      mf)).Perm (alKeys (generateCandidateKeywordScores
      (generateCandidateKeywords (splitSentences text) stopWordSet mc mw)
      (calculateWordScores
        (generateCandidateKeywords (splitSentences text) stopWordSet mc mw))
      mf)) := by
    refine List.Perm.map Prod.fst ?_
    exact (List.reverse_perm _).trans (List.perm_insertionSort _ _)
  have hsorted : (sortedKeywordKeys (generateCandidateKeywordScores
      (generateCandidateKeywords (splitSentences text) stopWordSet mc mw)
      (calculateWordScores
        (generateCandidateKeywords (splitSentences text) stopWordSet mc mw))
      mf)).Nodup := hperm.nodup_iff.mpr hkeys
  have hinj : Function.Injective String.mk := fun a b h => by injection h
  exact ((hsorted.filter _).map hinj)

/-- C5: the newest variant's ranker sorts the `(phrase, score)` pairs by
descending score, as a permutation, and the sort is stable: two pairs with
equal scores keep their relative order (which, for the pairs built from the
phrase-statistics map, is the order of first appearance). -/
theorem c5_ranker_sorts_descending_stably (pairs : List (K × ℚ)) :
    (Latest.rankDescendingPairs pairs).Perm pairs ∧
    List.Sorted Latest.scoreGeRel (Latest.rankDescendingPairs pairs) ∧
    ∀ x y : K × ℚ, x.2 = y.2 → [x, y].Sublist pairs →
      [x, y].Sublist (Latest.rankDescendingPairs pairs) := by
  refine ⟨List.perm_insertionSort _ _, List.sorted_insertionSort _ _, ?_⟩
  intro x y hxy hsub
  exact List.pair_sublist_insertionSort (le_of_eq hxy.symm) hsub

/-- C5 witness: two equal-score phrases stay in first-appearance order. -/
theorem c5_ranker_sorts_descending_stably_witness :
    [((['a','b'] : K), (1 : ℚ)), (['c','d'], 1)].Sublist
      (Latest.rankDescendingPairs [(['a','b'], 1), (['c','d'], 1)]) :=
  (c5_ranker_sorts_descending_stably [(['a','b'], 1), (['c','d'], 1)]).2.2
    (['a','b'], 1) (['c','d'], 1) rfl (List.Sublist.refl _)

end RakePos
